import Mathlib

set_option maxHeartbeats 1000000

namespace Cpp

/-- Tokens of the C++-like language, from the lexer interface consumed by the
excerpted sub-parsers (crate::lexer::Token). Only the token kinds those
sub-parsers inspect are distinguished; Other stands for any further kind. -/
inductive Token where
  | Using
  | Enum
  | Namespace
  | Typename
  | Comma
  | Ellipsis
  | ColonColon
  | DoubleLeftBrack
  | DoubleRightBrack
  | Equal
  | LeftParen
  | RightParen
  | LeftBrack
  | RightBrack
  | LeftBrace
  | RightBrace
  | Eof
  | Id (s : String)
  | Lit (s : String)
  | Other (n : Nat)
  deriving DecidableEq, Repr

/-- Token::get_string from the lexer: the payload of a string or raw-string
literal token, if any. -/
def Token.get_string : Token → Option String
  | .Lit s => some s
  | _ => none

/-- The identifier payload of a token, if any. -/
def Token.getId : Token → Option String
  | .Id s => some s
  | _ => none

/-- Modelled from the spec: the Token Source yields the next significant token
on demand, returning a distinguished end-of-input token at stream end, and
the current source span. It is modelled as the list of pending tokens plus a
position counter that serves as the span of the most recently read token. -/
structure Lexer where
  toks : List Token
  pos : Nat
  deriving DecidableEq, Repr

/-- Lexer::next_useful: the next significant token together with the advanced
lexer; a distinguished Eof token at end of input. -/
def Lexer.next_useful : Lexer → Token × Lexer
  | ⟨[], p⟩ => (Token.Eof, ⟨[], p + 1⟩)
  | ⟨t :: ts, p⟩ => (t, ⟨ts, p + 1⟩)

/-- Lexer::span: source location of the most recently returned token. -/
def Lexer.span (l : Lexer) : Nat := l.pos

/-- Pushback resolution, tok.unwrap_or_else(|| self.lexer.next_useful()): use
the pending unconsumed token when present, otherwise read a fresh one. -/
def getTok : Option Token → Lexer → Token × Lexer
  | some t, l => (t, l)
  | none, l => l.next_useful

/-- Reference-counted pointer (std::rc::Rc): rcId models the identity of the
heap allocation, so that sharing versus copying is observable. -/
structure Rc (α : Type) where
  rcId : Nat
  val : α
  deriving DecidableEq, Repr

/-- Rc::clone returns a handle to the same allocation, never a copy. -/
def Rc.clone {α : Type} (r : Rc α) : Rc α := r

/-- Modelled from the spec: the type-declarator built by the excluded
TypeDeclaratorParser, opaque at this level. -/
structure TypeDeclarator where
  name : String
  deriving DecidableEq, Repr

/-- Qualified name: an ordered sequence of name segments (A::B::C). -/
structure Qualified where
  names : List String
  deriving DecidableEq, Repr

/-- Modelled from the spec: Qualified::get_first_name (defined in names.rs,
outside the excerpt) yields the first segment of a qualified name. -/
def Qualified.get_first_name : Qualified → String
  | ⟨[]⟩ => ""
  | ⟨s :: _⟩ => s

/-- Modelled from the spec: attribute lists are parsed by a black-box
sub-parser; only the bracketed token payload is retained here. -/
structure Attributes where
  toks : List Token
  deriving DecidableEq, Repr

/-- Modelled from the spec: an expression node from the black-box expression
sub-parser, retained as its token payload. -/
structure ExprNode where
  toks : List Token
  deriving DecidableEq, Repr

/-- Modelled from the spec: statements are opaque to the excerpted parsers
(the Statement dispatcher lies outside the excerpt). -/
structure Statement where
  sid : Nat
  deriving DecidableEq, Repr

/-- Scope kinds pushed on the Context stack (parser::ScopeKind). -/
inductive ScopeKind where
  | Block
  | WhileBlock
  deriving DecidableEq, Repr

/-- Modelled from the spec: the Context scope and alias tracker — a stack of
kind-tagged scope frames, the name-to-type alias table, and the registered
type declarations. -/
structure Context where
  scopes : List ScopeKind := []
  aliases : List (String × Rc TypeDeclarator) := []
  typeDecls : List (Rc TypeDeclarator) := []
  deriving DecidableEq, Repr

/-- Context::set_current pushes a new scope frame tagged with a ScopeKind. -/
def Context.set_current (ctx : Context) (_nm : Option String) (k : ScopeKind) : Context :=
  { ctx with scopes := k :: ctx.scopes }

/-- Context::pop removes the innermost scope frame. -/
def Context.pop (ctx : Context) : Context :=
  { ctx with scopes := ctx.scopes.tail }

/-- Context::add_alias registers a name-to-type alias. -/
def Context.add_alias (ctx : Context) (n : String) (t : Rc TypeDeclarator) : Context :=
  { ctx with aliases := (n, t) :: ctx.aliases }

/-- Context::add_type_decl registers a type declaration. -/
def Context.add_type_decl (ctx : Context) (t : Rc TypeDeclarator) : Context :=
  { ctx with typeDecls := t :: ctx.typeDecls }

/-- ParserError: one variant per syntactically invalid construct, carrying
the source span and the offending token (parser::errors::ParserError, with
the variants used by the excerpted parsers). -/
inductive ParserError where
  | InvalidTokenInUsingEnum (sp : Nat) (tok : Token)
  | InvalidTokenInUsing (sp : Nat) (tok : Token)
  | InvalidTokenInAlias (sp : Nat) (tok : Token)
  | InvalidTokenInWhile (sp : Nat) (tok : Token)
  | OtherError (sp : Nat) (tok : Token)
  deriving DecidableEq, Repr

/-- DeclOrExpr: the tagged union produced by the declaration-or-expression
disambiguator for ambiguous header positions. -/
inductive DeclOrExpr where
  | Decl (t : Rc TypeDeclarator)
  | Expr (e : ExprNode)
  deriving DecidableEq, Repr

/-- Name: one entry of a using-declaration name list (using.rs). -/
structure Name where
  name : Qualified
  typename : Bool
  deriving DecidableEq, Repr

/-- UsingDecl (using.rs). -/
structure UsingDecl where
  names : List Name
  ellipsis : Bool
  deriving DecidableEq, Repr

/-- UsingEnum (using.rs). -/
structure UsingEnum where
  name : Qualified
  deriving DecidableEq, Repr

/-- UsingNS (using.rs). -/
structure UsingNS where
  name : Qualified
  attributes : Option Attributes
  deriving DecidableEq, Repr

/-- UsingAlias (using.rs): the aliased type is a shared reference-counted
type declarator. -/
structure UsingAlias where
  name : String
  typ : Rc TypeDeclarator
  attributes : Option Attributes
  deriving DecidableEq, Repr

/-- Declaration variants produced by the using sub-parser. -/
inductive Declaration where
  | UsingDecl (u : UsingDecl)
  | UsingEnum (u : UsingEnum)
  | UsingNS (u : UsingNS)
  | UsingAlias (u : UsingAlias)
  deriving DecidableEq, Repr

/-- While (while.rs). -/
structure While where
  attributes : Option Attributes
  condition : DeclOrExpr
  body : Statement
  deriving DecidableEq, Repr

/-- Compound (compound.rs). -/
structure Compound where
  attributes : Option Attributes
  stmts : List Statement
  deriving DecidableEq, Repr

/-- Array (array.rs). -/
structure Array where
  identifier : Option Qualified
  size : Option ExprNode
  deriving DecidableEq, Repr

/-- Asm (asm.rs). -/
structure Asm where
  attributes : Option Attributes
  code : String
  deriving DecidableEq, Repr

/-- Modelled from the spec: helper of the qualified-name sub-parser — consume
further "::segment" pairs after the leading identifier. -/
def qualSegs : List Token → List String × List Token
  | Token.ColonColon :: Token.Id s :: rest =>
      let q := qualSegs rest
      (s :: q.1, q.2)
  | ts => ([], ts)

/-- Modelled from the spec: QualifiedParser (names.rs, outside the excerpt) —
parses name segments separated by "::". It yields no name when the first
token is not an identifier; otherwise it yields the segment sequence together
with the following token as the unconsumed lookahead. -/
def qualifiedParse (tok : Option Token) (l : Lexer) :
    (Option Token × Option Qualified) × Lexer :=
  let t := getTok tok l
  match Token.getId t.1 with
  | some s =>
      let q := qualSegs t.2.toks
      let l2 : Lexer := ⟨q.2, t.2.pos + (t.2.toks.length - q.2.length)⟩
      let n := l2.next_useful
      ((some n.1, some ⟨s :: q.1⟩), n.2)
  | none => ((some t.1, none), t.2)

/-- Modelled from the spec: consume tokens up to and including the first
occurrence of the given terminator token. -/
def splitUntil (term : Token) : List Token → List Token × List Token
  | [] => ([], [])
  | t :: r =>
      if t = term then ([], r)
      else
        let s := splitUntil term r
        (t :: s.1, s.2)

/-- Modelled from the spec: AttributesParser (black box) — consumes a
"[[ ... ]]" attribute list, returning it with no pushback; yields no
attributes when the first token is not "[[". -/
def attributesParse (tok : Option Token) (l : Lexer) (_ctx : Context) :
    (Option Token × Option Attributes) × Lexer :=
  let t := getTok tok l
  if t.1 = Token.DoubleLeftBrack then
    let s := splitUntil Token.DoubleRightBrack t.2.toks
    ((none, some ⟨s.1⟩), ⟨s.2, t.2.pos + (t.2.toks.length - s.2.length)⟩)
  else ((some t.1, none), t.2)

/-- Modelled from the spec: TypeDeclaratorParser (black box) — consumes a
single identifier as the aliased type, allocates a fresh reference-counted
type declarator (identity = the position of the allocation) and returns the
following token as the unconsumed lookahead. -/
def typeDeclaratorParse (tok : Option Token) (l : Lexer) (_ctx : Context) :
    (Option Token × Option (Rc TypeDeclarator)) × Lexer :=
  let t := getTok tok l
  match Token.getId t.1 with
  | some s =>
      let n := t.2.next_useful
      ((some n.1, some ⟨t.2.pos, ⟨s⟩⟩), n.2)
  | none => ((some t.1, none), t.2)

/-- Modelled from the spec: ExpressionParser (black box) — consumes the tokens
of an optional expression up to and including the given terminator, and
returns the token following the terminator as the unconsumed lookahead; an
empty body yields no expression node. -/
def expressionParse (term : Token) (l : Lexer) :
    (Option Token × Option ExprNode) × Lexer :=
  let s := splitUntil term l.toks
  let l2 : Lexer := ⟨s.2, l.pos + (l.toks.length - s.2.length)⟩
  let n := l2.next_useful
  ((some n.1, if s.1.isEmpty then none else some ⟨s.1⟩), n.2)

/-- Modelled from the spec: helper of the string-literal sub-parser — consume
a run of literal tokens, concatenating their text. -/
def litRun : List Token → String → String × List Token
  | Token.Lit s :: r, acc => litRun r (acc ++ s)
  | ts, acc => (acc, ts)

/-- Modelled from the spec: StringLiteralParser (black box) — continues a
string or raw-string literal across its parts, concatenating the text, and
returns the following token as the unconsumed lookahead. -/
def stringLiteralParse (code : String) (l : Lexer) :
    (Option Token × String) × Lexer :=
  let r := litRun l.toks code
  let l2 : Lexer := ⟨r.2, l.pos + (l.toks.length - r.2.length)⟩
  let n := l2.next_useful
  ((some n.1, r.1), n.2)

/-- Result triple of UsingParser::parse: outcome, lexer and Context after the
call. -/
abbrev UsingResult :=
  Except ParserError (Option Token × Option Declaration) × Lexer × Context

/-- UsingParser::parse, using.rs lines 181-252: dispatch on the token that
follows a parsed name in the name list. The cont parameter is the
","-continuation, that is the enclosing loop. -/
def usingAfterName (cont : List Name → Token → Lexer → Context → Option UsingResult)
    (names : List Name) (name : Qualified) (typename : Bool)
    (tk : Token) (l2 : Lexer) (ctx : Context) : Option UsingResult :=
  if tk = Token.Comma then
    let n := l2.next_useful
    cont (names ++ [⟨name, typename⟩]) n.1 n.2 ctx
  else if tk = Token.Ellipsis then
    some (.ok (none, some (.UsingDecl ⟨names ++ [⟨name, typename⟩], true⟩)), l2, ctx)
  else if tk = Token.DoubleLeftBrack then
    let ar := attributesParse (some tk) l2 ctx
    let g2 := getTok ar.1.1 ar.2
    if g2.1 = Token.Equal then
      let tr := typeDeclaratorParse none g2.2 ctx
      match tr.1.2 with
      | some typ =>
        let n2 := name.get_first_name
        let ctx2 := ctx.add_alias n2 typ.clone
        some (.ok (tr.1.1, some (.UsingAlias ⟨n2, typ, ar.1.2⟩)), tr.2, ctx2)
      | none => none
    else
      some (.error (.InvalidTokenInAlias g2.2.span g2.1), g2.2, ctx)
  else if tk = Token.Equal then
    let tr := typeDeclaratorParse none l2 ctx
    match tr.1.2 with
    | some typ =>
      let n2 := name.get_first_name
      let ctx2 := ctx.add_alias n2 typ.clone
      some (.ok (tr.1.1, some (.UsingAlias ⟨n2, typ, none⟩)), tr.2, ctx2)
    | none => none
  else
    some (.ok (some tk, some (.UsingDecl ⟨names ++ [⟨name, typename⟩], false⟩)), l2, ctx)

/-- UsingParser::parse, using.rs lines 159-253: the name-list loop. One unit
of fuel is spent per ","-continuation; a none result models fuel exhaustion
or a panic (Option::unwrap on a missing value) in the source. -/
def usingLoop : Nat → List Name → Token → Lexer → Context → Option UsingResult
  | 0, _, _, _, _ => none
  | fuel + 1, names, tok, l, ctx =>
    let step := if tok = Token.Typename then (l.next_useful, true) else ((tok, l), false)
    let qr := qualifiedParse (some step.1.1) step.1.2
    match qr.1.2 with
    | none =>
        match qr.1.1 with
        | some t => some (.error (.InvalidTokenInUsing qr.2.span t), qr.2, ctx)
        | none => none
    | some name =>
      let g := getTok qr.1.1 qr.2
      usingAfterName (usingLoop fuel) names name step.2 g.1 g.2 ctx

/-- UsingParser::parse, using.rs lines 114-157: keyword check, the
"using enum" and "using namespace" dispatch, then the name-list loop. -/
def usingParse (fuel : Nat) (tok : Option Token) (l : Lexer) (ctx : Context) :
    Option UsingResult :=
  let t := getTok tok l
  if t.1 = Token.Using then
    let n := t.2.next_useful
    if n.1 = Token.Enum then
      let qr := qualifiedParse none n.2
      match qr.1.2 with
      | some name => some (.ok (qr.1.1, some (.UsingEnum ⟨name⟩)), qr.2, ctx)
      | none =>
          match qr.1.1 with
          | some t2 => some (.error (.InvalidTokenInUsingEnum qr.2.span t2), qr.2, ctx)
          | none => none
    else if n.1 = Token.Namespace then
      let qr := qualifiedParse none n.2
      match qr.1.2 with
      | some name => some (.ok (qr.1.1, some (.UsingNS ⟨name, none⟩)), qr.2, ctx)
      | none =>
          match qr.1.1 with
          | some t2 => some (.error (.InvalidTokenInUsingEnum qr.2.span t2), qr.2, ctx)
          | none => none
    else
      usingLoop fuel [] n.1 n.2 ctx
  else
    some (.ok (some t.1, none), t.2, ctx)

/-- Signature of a sub-parser entry point, per the spec's core-to-caller
contract: (optional already-read token, lexer, Context) to a result, the
advanced lexer and the possibly mutated Context. -/
abbrev SubParser (α : Type) :=
  Option Token → Lexer → Context →
    Except ParserError (Option Token × Option α) × Lexer × Context

/-- Events recording the While parser's own Context operations and sub-parser
invocations, in program order; bodyCall carries the Context handed to the
body statement sub-parser. -/
inductive WEvent where
  | push (k : ScopeKind)
  | condCall
  | addTypeDecl (t : Rc TypeDeclarator)
  | bodyCall (c : Context)
  | pop
  deriving DecidableEq, Repr

/-- Result of WhileStmtParser::parse: outcome (none models a panic from
Option::unwrap in the source), lexer, Context, and the event trace. -/
abbrev WhileResult :=
  Option (Except ParserError (Option Token × Option While)) × Lexer × Context × List WEvent

/-- WhileStmtParser::parse, while.rs lines 39-83, with the condition
(DeclOrExprParser) and body (StatementParser) sub-parsers as parameters,
since their dispatchers lie outside the excerpt. -/
def whileParse (dep : SubParser DeclOrExpr) (sp : SubParser Statement)
    (attributes : Option Attributes) (l : Lexer) (ctx : Context) : WhileResult :=
  let n := l.next_useful
  if n.1 = Token.LeftParen then
    let ctx0 := ctx.set_current none ScopeKind.WhileBlock
    match dep none n.2 ctx0 with
    | (.error e, l1, ctx1) =>
        (some (.error e), l1, ctx1, [.push .WhileBlock, .condCall])
    | (.ok (tokOpt, condition), l1, ctx1) =>
      let reg : Context × List WEvent :=
        match condition with
        | some (.Decl t) =>
            (ctx1.add_type_decl t.clone,
             [.push .WhileBlock, .condCall, .addTypeDecl t.clone])
        | _ => (ctx1, [.push .WhileBlock, .condCall])
      let g := getTok tokOpt l1
      if g.1 = Token.RightParen then
        match sp none g.2 reg.1 with
        | (.error e, l2, ctx2) =>
            (some (.error e), l2, ctx2, reg.2 ++ [.bodyCall reg.1])
        | (.ok (tok2, body), l2, ctx2) =>
          let ctx3 := ctx2.pop
          match condition, body with
          | some c, some b =>
              (some (.ok (tok2, some ⟨attributes, c, b⟩)), l2, ctx3,
               reg.2 ++ [.bodyCall reg.1, .pop])
          | _, _ => (none, l2, ctx3, reg.2 ++ [.bodyCall reg.1, .pop])
      else
        (some (.error (.InvalidTokenInWhile g.2.span g.1)), g.2, reg.1.pop,
         reg.2 ++ [.pop])
  else
    (some (.error (.InvalidTokenInWhile n.2.span n.1)), n.2, ctx, [])

/-- Events recording the Compound parser's own Context operations and
sub-parser invocations, in program order; stmtProduced records a statement
handed back by the statement sub-parser. -/
inductive CEvent where
  | push (k : ScopeKind)
  | stmtCall
  | stmtProduced (s : Statement)
  | pop
  deriving DecidableEq, Repr

/-- Result of CompoundStmtParser::parse: outcome (none models fuel
exhaustion), lexer, Context, and the event trace. -/
abbrev CompoundResult :=
  Option (Except ParserError (Option Token × Option Compound)) × Lexer × Context × List CEvent

/-- CompoundStmtParser::parse, compound.rs lines 56-70: the statement loop.
One unit of fuel is spent per iteration. -/
def compoundLoop (sp : SubParser Statement) (attributes : Option Attributes) :
    Nat → List Statement → Token → Lexer → Context → CompoundResult
  | 0, _, _, l, ctx => (none, l, ctx, [])
  | fuel + 1, stmts, tok, l, ctx =>
    if tok = Token.RightBrace ∨ tok = Token.Eof then
      (some (.ok (none, some ⟨attributes, stmts⟩)), l, ctx.pop, [.pop])
    else
      match sp (some tok) l ctx with
      | (.error e, l1, ctx1) => (some (.error e), l1, ctx1, [.stmtCall])
      | (.ok (tk, stmt), l1, ctx1) =>
        let acc : List Statement × List CEvent :=
          match stmt with
          | some s => (stmts ++ [s], [.stmtCall, .stmtProduced s])
          | none => (stmts, [.stmtCall])
        let g := getTok tk l1
        let r := compoundLoop sp attributes fuel acc.1 g.1 g.2 ctx1
        (r.1, r.2.1, r.2.2.1, acc.2 ++ r.2.2.2)

/-- CompoundStmtParser::parse, compound.rs lines 47-71, with the statement
sub-parser as a parameter. -/
def compoundParse (sp : SubParser Statement) (fuel : Nat)
    (attributes : Option Attributes) (l : Lexer) (ctx : Context) : CompoundResult :=
  let n := l.next_useful
  let ctx0 := ctx.set_current none ScopeKind.Block
  let r := compoundLoop sp attributes fuel [] n.1 n.2 ctx0
  (r.1, r.2.1, r.2.2.1, .push .Block :: r.2.2.2)

/-- The statements handed back by the statement sub-parser, in call order, as
recorded in a Compound event trace. -/
def producedOf : List CEvent → List Statement
  | [] => []
  | .stmtProduced s :: r => s :: producedOf r
  | _ :: r => producedOf r

/-- ArrayParser::parse, array.rs lines 24-39. -/
def arrayParse (tok : Option Token) (l : Lexer) :
    (Option Token × Option Array) × Lexer :=
  let t := getTok tok l
  if t.1 = Token.LeftBrack then
    let er := expressionParse Token.RightBrack t.2
    ((er.1.1, some ⟨none, er.1.2⟩), er.2)
  else
    ((some t.1, none), t.2)

/-- Outcome of AsmParser::parse: done for a normal return, abort for the
unconditional unreachable branches of the source. -/
inductive AsmResult where
  | done (tok : Option Token) (asm : Option Asm)
  | abort
  deriving DecidableEq, Repr

/-- Assembled literal text: the concatenation of the continuation parts onto
the first part, in order. -/
def assembled (first : String) (parts : List String) : String :=
  parts.foldl (fun a b => a ++ b) first

/-- Token rendering of the "::"-separated continuation segments of a
qualified name. -/
def segsToks : List String → List Token
  | [] => []
  | s :: r => Token.ColonColon :: Token.Id s :: segsToks r

/-- One entry of a well-formed using name list: an optional typename keyword
followed by a qualified name with leading segment s0 and further segments. -/
structure UEntry where
  tn : Bool
  s0 : String
  rest : List String
  deriving DecidableEq, Repr

/-- First token of a rendered using name-list entry. -/
def firstTok (e : UEntry) : Token :=
  if e.tn then Token.Typename else Token.Id e.s0

/-- Remaining tokens of a rendered using name-list entry. -/
def entryRest (e : UEntry) : List Token :=
  (if e.tn then [Token.Id e.s0] else []) ++ segsToks e.rest

/-- Token rendering of one using name-list entry. -/
def entryToks (e : UEntry) : List Token :=
  firstTok e :: entryRest e

/-- The Name AST node an entry denotes. -/
def UEntry.toName (e : UEntry) : Name :=
  ⟨⟨e.s0 :: e.rest⟩, e.tn⟩

/-- Token rendering of the entries after the first one of a using name list,
each preceded by a comma, followed by the given tail. -/
def listTail : List UEntry → List Token → List Token
  | [], tail => tail
  | e :: es, tail => Token.Comma :: entryToks e ++ listTail es tail

/-- Token rendering of a whole using name list followed by the given tail. -/
def listToks (e : UEntry) (es : List UEntry) (tail : List Token) : List Token :=
  entryToks e ++ listTail es tail

/-- A token that terminates a using name list through the default match arm:
it is none of ",", "...", "[[", "=", and does not extend the final qualified
name ("::"). -/
def stopTok (t : Token) : Prop :=
  t ≠ Token.Comma ∧ t ≠ Token.Ellipsis ∧ t ≠ Token.DoubleLeftBrack ∧
  t ≠ Token.Equal ∧ t ≠ Token.ColonColon

/-- Well-formed tail of a using name list together with the pushback token
and ellipsis flag it must produce: either a trailing "..." (no pushback,
ellipsis set) or a terminating token (echoed as pushback, ellipsis unset). -/
def TailSpec (tail : List Token) (pb : Option Token) (ell : Bool) : Prop :=
  (∃ more, tail = Token.Ellipsis :: more ∧ pb = none ∧ ell = true) ∨
  (∃ t more, tail = t :: more ∧ stopTok t ∧ pb = some t ∧ ell = false)

/-- A condition sub-parser that fails at once, leaving lexer and Context
untouched. -/
def depFail : SubParser DeclOrExpr :=
  fun _ l c => (.error (.OtherError 0 Token.Eof), l, c)

/-- A statement sub-parser that fails at once, leaving lexer and Context
untouched. -/
def spFail : SubParser Statement :=
  fun _ l c => (.error (.OtherError 0 Token.Eof), l, c)

/-- A condition sub-parser that yields a declaration condition without
touching lexer or Context. -/
def depDecl : SubParser DeclOrExpr :=
  fun _ l c => (.ok (none, some (.Decl ⟨7, ⟨"T"⟩⟩)), l, c)

/-- A statement sub-parser that consumes only its pushback token and yields
the same statement each time, leaving lexer and Context untouched. -/
def spStub : SubParser Statement :=
  fun _ l c => (.ok (none, some ⟨42⟩), l, c)

/-- AsmParser::parse, asm.rs lines 26-47; the source's unreachable branches
are the abort outcome, which is not a ParserError. -/
def asmParse (attributes : Option Attributes) (l : Lexer) : AsmResult × Lexer :=
  let n := l.next_useful
  if n.1 = Token.LeftParen then
    let n2 := n.2.next_useful
    match Token.get_string n2.1 with
    | some code =>
      let sr := stringLiteralParse code n2.2
      let g := getTok sr.1.1 sr.2
      if g.1 = Token.RightParen then (.done none (some ⟨attributes, sr.1.2⟩), g.2)
      else (.abort, g.2)
    | none => (.abort, n2.2)
  else (.abort, n.2)

@[simp]
theorem getTok_some (t : Token) (l : Lexer) : getTok (some t) l = (t, l) := rfl

@[simp]
theorem getTok_none (l : Lexer) : getTok none l = l.next_useful := rfl

@[simp]
theorem next_useful_cons (t : Token) (ts : List Token) (p : Nat) :
    Lexer.next_useful ⟨t :: ts, p⟩ = (t, ⟨ts, p + 1⟩) := rfl

@[simp]
theorem next_useful_nil (p : Nat) :
    Lexer.next_useful ⟨[], p⟩ = (Token.Eof, ⟨[], p + 1⟩) := rfl

theorem splitUntil_append (term : Token) (body : List Token) (h : term ∉ body)
    (rest : List Token) : splitUntil term (body ++ term :: rest) = (body, rest) := by
  induction body with
  | nil => simp [splitUntil]
  | cons b bs ih =>
      simp only [List.mem_cons, not_or] at h
      have hb : ¬ b = term := fun hbt => h.1 hbt.symm
      simp [splitUntil, hb, ih h.2]

theorem litRun_eq (parts : List String) (t : Token) (h : Token.get_string t = none)
    (rest : List Token) :
    ∀ acc, litRun (parts.map Token.Lit ++ t :: rest) acc = (assembled acc parts, t :: rest) := by
  induction parts with
  | nil =>
      intro acc
      cases t <;> simp_all [litRun, assembled, Token.get_string]
  | cons s ps ih =>
      intro acc
      simpa [litRun, assembled] using ih (acc ++ s)

theorem qualSegs_eq (rest : List String) :
    ∀ (t : Token) (more : List Token), t ≠ Token.ColonColon →
      qualSegs (segsToks rest ++ t :: more) = (rest, t :: more) := by
  induction rest with
  | nil =>
      intro t more h
      cases t <;> first | rfl | exact absurd rfl h
  | cons s ss ih =>
      intro t more h
      have hq := ih t more h
      simp [segsToks, qualSegs, hq]

theorem qualSegs_nil (t : Token) (more : List Token) (h : t ≠ Token.ColonColon) :
    qualSegs (t :: more) = ([], t :: more) := by
  simpa [segsToks] using qualSegs_eq [] t more h

theorem qualifiedParse_segs (s : String) (rest : List String) (t : Token) (more : List Token)
    (p : Nat) (h : t ≠ Token.ColonColon) :
    qualifiedParse (some (Token.Id s)) ⟨segsToks rest ++ t :: more, p⟩
      = ((some t, some ⟨s :: rest⟩), ⟨more, p + (segsToks rest).length + 1⟩) := by
  simp [qualifiedParse, Token.getId, qualSegs_eq rest t more h, List.length_append]

theorem usingLoop_entry (fuel : Nat) (acc : List Name) (ctx : Context) (e : UEntry)
    (t : Token) (more : List Token) (p : Nat) (h : t ≠ Token.ColonColon) :
    usingLoop (fuel + 1) acc (firstTok e) ⟨entryRest e ++ t :: more, p⟩ ctx
      = usingAfterName (usingLoop fuel) acc ⟨e.s0 :: e.rest⟩ e.tn t
          ⟨more, p + (entryRest e).length + 1⟩ ctx := by
  rcases e with ⟨tn, s0, rest⟩
  cases tn with
  | false =>
      have hq := qualifiedParse_segs s0 rest t more p h
      rw [usingLoop]
      simp [firstTok, entryRest, hq]
  | true =>
      have hq := qualifiedParse_segs s0 rest t more (p + 1) h
      rw [usingLoop]
      simp [firstTok, entryRest, hq]
      have harith : p + 1 + (segsToks rest).length + 1 = p + ((segsToks rest).length + 1) + 1 := by
        omega
      rw [harith]

theorem usingAfterName_comma (cont : List Name → Token → Lexer → Context → Option UsingResult)
    (acc : List Name) (name : Qualified) (tn : Bool) (l2 : Lexer) (ctx : Context) :
    usingAfterName cont acc name tn Token.Comma l2 ctx
      = cont (acc ++ [⟨name, tn⟩]) (l2.next_useful).1 (l2.next_useful).2 ctx := by
  simp [usingAfterName]

theorem usingAfterName_ellipsis (cont : List Name → Token → Lexer → Context → Option UsingResult)
    (acc : List Name) (name : Qualified) (tn : Bool) (l2 : Lexer) (ctx : Context) :
    usingAfterName cont acc name tn Token.Ellipsis l2 ctx
      = some (.ok (none, some (.UsingDecl ⟨acc ++ [⟨name, tn⟩], true⟩)), l2, ctx) := by
  simp [usingAfterName]

theorem usingAfterName_stop (cont : List Name → Token → Lexer → Context → Option UsingResult)
    (acc : List Name) (name : Qualified) (tn : Bool) (t : Token) (l2 : Lexer) (ctx : Context)
    (h : stopTok t) :
    usingAfterName cont acc name tn t l2 ctx
      = some (.ok (some t, some (.UsingDecl ⟨acc ++ [⟨name, tn⟩], false⟩)), l2, ctx) := by
  obtain ⟨h1, h2, h3, h4, _⟩ := h
  simp [usingAfterName, h1, h2, h3, h4]

theorem usingAfterName_equal (cont : List Name → Token → Lexer → Context → Option UsingResult)
    (acc : List Name) (name : Qualified) (tn : Bool) (ty : String) (u : Token)
    (more : List Token) (p2 : Nat) (ctx : Context) :
    usingAfterName cont acc name tn Token.Equal ⟨Token.Id ty :: u :: more, p2⟩ ctx
      = some (.ok (some u, some (.UsingAlias ⟨name.get_first_name, ⟨p2 + 1, ⟨ty⟩⟩, none⟩)),
          ⟨more, p2 + 2⟩, ctx.add_alias name.get_first_name ⟨p2 + 1, ⟨ty⟩⟩) := by
  simp [usingAfterName, typeDeclaratorParse, Token.getId, Rc.clone]

theorem usingAfterName_attr_equal
    (cont : List Name → Token → Lexer → Context → Option UsingResult)
    (acc : List Name) (name : Qualified) (tn : Bool) (body : List Token)
    (hb : Token.DoubleRightBrack ∉ body) (ty : String) (u : Token)
    (more : List Token) (p2 : Nat) (ctx : Context) :
    usingAfterName cont acc name tn Token.DoubleLeftBrack
        ⟨body ++ Token.DoubleRightBrack :: Token.Equal :: Token.Id ty :: u :: more, p2⟩ ctx
      = some (.ok (some u, some (.UsingAlias ⟨name.get_first_name,
            ⟨p2 + body.length + 3, ⟨ty⟩⟩, some ⟨body⟩⟩)),
          ⟨more, p2 + body.length + 4⟩,
          ctx.add_alias name.get_first_name ⟨p2 + body.length + 3, ⟨ty⟩⟩) := by
  simp [usingAfterName, attributesParse, splitUntil_append Token.DoubleRightBrack body hb,
    typeDeclaratorParse, Token.getId, Rc.clone, List.length_append]
  have e1 : body.length + (more.length + 1 + 1 + 1 + 1) - (more.length + 1 + 1 + 1)
      = body.length + 1 := by omega
  simp only [e1]
  have e2 : p2 + (body.length + 1) = p2 + body.length + 1 := by omega
  have e3 : p2 + (body.length + 1) + 1 + 1 = p2 + body.length + 3 := by omega
  simp only [e2, e3]
  exact ⟨trivial, trivial⟩

theorem usingAfterName_attr_bad
    (cont : List Name → Token → Lexer → Context → Option UsingResult)
    (acc : List Name) (name : Qualified) (tn : Bool) (body : List Token)
    (hb : Token.DoubleRightBrack ∉ body) (u : Token) (hu : u ≠ Token.Equal)
    (more : List Token) (p2 : Nat) (ctx : Context) :
    usingAfterName cont acc name tn Token.DoubleLeftBrack
        ⟨body ++ Token.DoubleRightBrack :: u :: more, p2⟩ ctx
      = some (.error (.InvalidTokenInAlias (p2 + body.length + 2) u),
          ⟨more, p2 + body.length + 2⟩, ctx) := by
  simp [usingAfterName, attributesParse, splitUntil_append Token.DoubleRightBrack body hb,
    Lexer.span, hu, List.length_append]
  omega

theorem usingLoop_list (es : List UEntry) :
    ∀ (e : UEntry) (acc : List Name) (extra p : Nat) (ctx : Context) (tail : List Token)
      (pb : Option Token) (ell : Bool), TailSpec tail pb ell →
      ∃ l2, usingLoop (es.length + 1 + extra) acc (firstTok e)
          ⟨entryRest e ++ listTail es tail, p⟩ ctx
        = some (.ok (pb, some (.UsingDecl ⟨acc ++ (e :: es).map UEntry.toName, ell⟩)), l2, ctx) := by
  induction es with
  | nil =>
      intro e acc extra p ctx tail pb ell hts
      have hf : ([] : List UEntry).length + 1 + extra = extra + 1 := by simp; omega
      rw [hf]
      simp only [listTail]
      rcases hts with ⟨more, htail, hpb, hell⟩ | ⟨t, more, htail, hst, hpb, hell⟩
      · subst htail hpb hell
        rw [usingLoop_entry extra acc ctx e Token.Ellipsis more p (by simp)]
        rw [usingAfterName_ellipsis]
        exact ⟨⟨more, p + (entryRest e).length + 1⟩, by simp [UEntry.toName]⟩
      · subst htail hpb hell
        rw [usingLoop_entry extra acc ctx e t more p hst.2.2.2.2]
        rw [usingAfterName_stop _ _ _ _ _ _ _ hst]
        exact ⟨⟨more, p + (entryRest e).length + 1⟩, by simp [UEntry.toName]⟩
  | cons e2 es2 ih =>
      intro e acc extra p ctx tail pb ell hts
      have hf : (e2 :: es2).length + 1 + extra = (es2.length + 1 + extra) + 1 := by
        simp; omega
      rw [hf]
      simp only [listTail, entryToks, List.cons_append, List.append_assoc]
      rw [usingLoop_entry (es2.length + 1 + extra) acc ctx e Token.Comma
        (firstTok e2 :: (entryRest e2 ++ listTail es2 tail)) p (by simp)]
      rw [usingAfterName_comma]
      simp only [next_useful_cons]
      obtain ⟨l2, hl2⟩ := ih e2 (acc ++ [UEntry.toName e]) extra
        (p + (entryRest e).length + 1 + 1) ctx tail pb ell hts
      refine ⟨l2, ?_⟩
      simp only [UEntry.toName] at hl2
      rw [hl2]
      simp [UEntry.toName]

/-- C2: for every well-formed using name list — entries of optionally
typename-prefixed qualified names, separated by commas — the Using parser
returns a UsingDecl holding exactly the entries in source order with their
typename flags; a trailing "..." yields ellipsis = true with the entry
before the "..." last (no entries follow it) and no pushback, while any
other terminating token yields ellipsis = false with that token echoed as
the pushback. -/
theorem usingParse_name_list (e : UEntry) (es : List UEntry) (extra p : Nat) (ctx : Context)
    (tail : List Token) (pb : Option Token) (ell : Bool) (hts : TailSpec tail pb ell) :
    ∃ l2, usingParse (es.length + 1 + extra) none ⟨Token.Using :: listToks e es tail, p⟩ ctx
      = some (.ok (pb, some (.UsingDecl ⟨(e :: es).map UEntry.toName, ell⟩)), l2, ctx) := by
  obtain ⟨l2, hl2⟩ := usingLoop_list es e [] extra (p + 2) ctx tail pb ell hts
  refine ⟨l2, ?_⟩
  rw [usingParse]
  simp only [getTok_none, listToks, entryToks, List.cons_append, next_useful_cons]
  have h1 : firstTok e ≠ Token.Enum := by
    rcases e with ⟨tn, s0, rest⟩; cases tn <;> simp [firstTok]
  have h2 : firstTok e ≠ Token.Namespace := by
    rcases e with ⟨tn, s0, rest⟩; cases tn <;> simp [firstTok]
  simp only [List.nil_append] at hl2
  simp [h1, h2, hl2]

/-- Witness for usingParse_name_list: the list "A::B, typename C ..." with a
trailing ellipsis. -/
theorem usingParse_name_list_witness :
    ∃ l2, usingParse 2 none
        ⟨Token.Using :: listToks ⟨false, "A", ["B"]⟩ [⟨true, "C", []⟩] [Token.Ellipsis], 0⟩ {}
      = some (.ok (none, some (.UsingDecl
          ⟨[⟨false, "A", ["B"]⟩, ⟨true, "C", []⟩].map UEntry.toName, true⟩)), l2, {}) :=
  usingParse_name_list ⟨false, "A", ["B"]⟩ [⟨true, "C", []⟩] 0 0 {} [Token.Ellipsis] none true
    (Or.inl ⟨[], rfl, rfl, rfl⟩)

/-- C5: the Using parser's error taxonomy — a qualified-name sub-parse
yielding no name after "using enum" or after "using namespace" raises
InvalidTokenInUsingEnum; yielding no name in the middle of a using name list
raises InvalidTokenInUsing; a token other than "=" after the attribute list
of an alias header raises InvalidTokenInAlias; every error carries the
current source span and the offending token. -/
theorem usingParse_error_spec :
    (∀ (fuel : Nat) (t : Token) (rest : List Token) (p : Nat) (ctx : Context),
      Token.getId t = none →
      usingParse fuel none ⟨Token.Using :: Token.Enum :: t :: rest, p⟩ ctx
        = some (.error (.InvalidTokenInUsingEnum (p + 3) t), ⟨rest, p + 3⟩, ctx)) ∧
    (∀ (fuel : Nat) (t : Token) (rest : List Token) (p : Nat) (ctx : Context),
      Token.getId t = none →
      usingParse fuel none ⟨Token.Using :: Token.Namespace :: t :: rest, p⟩ ctx
        = some (.error (.InvalidTokenInUsingEnum (p + 3) t), ⟨rest, p + 3⟩, ctx)) ∧
    (∀ (fuel : Nat) (acc : List Name) (t : Token) (l : Lexer) (ctx : Context),
      t ≠ Token.Typename → Token.getId t = none →
      usingLoop (fuel + 1) acc t l ctx
        = some (.error (.InvalidTokenInUsing l.span t), l, ctx)) ∧
    (∀ (fuel : Nat) (acc : List Name) (ctx : Context) (e : UEntry) (body : List Token)
       (u : Token) (more : List Token) (p : Nat),
      Token.DoubleRightBrack ∉ body → u ≠ Token.Equal →
      usingLoop (fuel + 1) acc (firstTok e)
          ⟨entryRest e ++ Token.DoubleLeftBrack :: (body ++ Token.DoubleRightBrack :: u :: more), p⟩ ctx
        = some (.error (.InvalidTokenInAlias (p + (entryRest e).length + 1 + body.length + 2) u),
            ⟨more, p + (entryRest e).length + 1 + body.length + 2⟩, ctx)) := by
  refine ⟨?_, ?_, ?_, ?_⟩
  · intro fuel t rest p ctx h
    rw [usingParse]
    simp [qualifiedParse, h, Lexer.span]
  · intro fuel t rest p ctx h
    rw [usingParse]
    simp [qualifiedParse, h, Lexer.span]
  · intro fuel acc t l ctx ht h
    rw [usingLoop]
    simp [qualifiedParse, ht, h, Lexer.span]
  · intro fuel acc ctx e body u more p hb hu
    rw [usingLoop_entry fuel acc ctx e Token.DoubleLeftBrack
      (body ++ Token.DoubleRightBrack :: u :: more) p (by simp)]
    rw [usingAfterName_attr_bad (usingLoop fuel) acc ⟨e.s0 :: e.rest⟩ e.tn body hb u hu
      more (p + (entryRest e).length + 1) ctx]

/-- Witness for usingParse_error_spec at concrete malformed inputs. -/
theorem usingParse_error_spec_witness :
    usingParse 1 none ⟨[Token.Using, Token.Enum, Token.Comma], 0⟩ {}
      = some (.error (.InvalidTokenInUsingEnum 3 Token.Comma), ⟨[], 3⟩, {}) ∧
    usingParse 1 none ⟨[Token.Using, Token.Namespace, Token.Comma], 0⟩ {}
      = some (.error (.InvalidTokenInUsingEnum 3 Token.Comma), ⟨[], 3⟩, {}) ∧
    usingLoop 1 [] Token.Comma ⟨[], 5⟩ {}
      = some (.error (.InvalidTokenInUsing (Lexer.span ⟨[], 5⟩) Token.Comma), ⟨[], 5⟩, {}) ∧
    usingLoop 1 [] (firstTok ⟨false, "N", []⟩)
        ⟨entryRest ⟨false, "N", []⟩
          ++ Token.DoubleLeftBrack :: ([] ++ Token.DoubleRightBrack :: Token.Comma :: []), 0⟩ {}
      = some (.error (.InvalidTokenInAlias (0 + (entryRest ⟨false, "N", []⟩).length + 1 + 0 + 2)
          Token.Comma), ⟨[], 0 + (entryRest ⟨false, "N", []⟩).length + 1 + 0 + 2⟩, {}) := by
  refine ⟨usingParse_error_spec.1 1 Token.Comma [] 0 {} rfl,
    usingParse_error_spec.2.1 1 Token.Comma [] 0 {} rfl,
    usingParse_error_spec.2.2.1 0 [] Token.Comma ⟨[], 5⟩ {} (by simp) rfl,
    ?_⟩
  have h := usingParse_error_spec.2.2.2 0 [] {} ⟨false, "N", []⟩ [] Token.Comma [] 0
    (by simp) (by simp)
  simpa using h

/-- C3: a successful parse of "using Name = Type" or
"using Name [[attrs]] = Type" both registers the alias name into the Context
alias table and returns a UsingAlias node, with attributes none in the first
form and some in the second; the type declarator stored in the returned
UsingAlias and the one registered into the Context alias table are the same
shared reference-counted object r (the same allocation, not a copy). -/
theorem usingParse_alias_spec :
    (∀ (fuel : Nat) (n ty : String) (u : Token) (more : List Token) (p : Nat) (ctx : Context),
      ∃ r : Rc TypeDeclarator,
        usingParse (fuel + 1) none
            ⟨Token.Using :: Token.Id n :: Token.Equal :: Token.Id ty :: u :: more, p⟩ ctx
          = some (.ok (some u, some (.UsingAlias ⟨n, r, none⟩)), ⟨more, p + 5⟩,
              ctx.add_alias n r)) ∧
    (∀ (fuel : Nat) (n : String) (body : List Token) (ty : String) (u : Token)
       (more : List Token) (p : Nat) (ctx : Context), Token.DoubleRightBrack ∉ body →
      ∃ r : Rc TypeDeclarator,
        usingParse (fuel + 1) none
            ⟨Token.Using :: Token.Id n :: Token.DoubleLeftBrack ::
              (body ++ Token.DoubleRightBrack :: Token.Equal :: Token.Id ty :: u :: more), p⟩ ctx
          = some (.ok (some u, some (.UsingAlias ⟨n, r, some ⟨body⟩⟩)),
              ⟨more, p + body.length + 7⟩, ctx.add_alias n r)) := by
  constructor
  · intro fuel n ty u more p ctx
    refine ⟨⟨p + 4, ⟨ty⟩⟩, ?_⟩
    have he := usingLoop_entry fuel [] ctx ⟨false, n, []⟩ Token.Equal
      (Token.Id ty :: u :: more) (p + 2) (by simp)
    simp [firstTok, entryRest, segsToks] at he
    have ha := usingAfterName_equal (usingLoop fuel) [] ⟨[n]⟩ false ty u more (p + 3) ctx
    rw [usingParse]
    simp [he, ha, Qualified.get_first_name]
  · intro fuel n body ty u more p ctx hb
    refine ⟨⟨p + body.length + 6, ⟨ty⟩⟩, ?_⟩
    have he := usingLoop_entry fuel [] ctx ⟨false, n, []⟩ Token.DoubleLeftBrack
      (body ++ Token.DoubleRightBrack :: Token.Equal :: Token.Id ty :: u :: more) (p + 2) (by simp)
    simp [firstTok, entryRest, segsToks] at he
    have ha := usingAfterName_attr_equal (usingLoop fuel) [] ⟨[n]⟩ false body hb ty u more
      (p + 3) ctx
    have hx : p + 3 + body.length + 3 = p + body.length + 6 := by omega
    have hy : p + 3 + body.length + 4 = p + body.length + 7 := by omega
    rw [usingParse]
    simp [he, ha, hx, hy, Qualified.get_first_name]

/-- Witness for usingParse_alias_spec: "using N = T" and
"using N [[a]] = T" at concrete tokens. -/
theorem usingParse_alias_spec_witness :
    (∃ r : Rc TypeDeclarator,
      usingParse 1 none
          ⟨Token.Using :: Token.Id "N" :: Token.Equal :: Token.Id "T" :: Token.Comma :: [], 0⟩ {}
        = some (.ok (some Token.Comma, some (.UsingAlias ⟨"N", r, none⟩)), ⟨[], 5⟩,
            Context.add_alias {} "N" r)) ∧
    (∃ r : Rc TypeDeclarator,
      usingParse 1 none
          ⟨Token.Using :: Token.Id "N" :: Token.DoubleLeftBrack ::
            ([Token.Id "a"] ++ Token.DoubleRightBrack :: Token.Equal
              :: Token.Id "T" :: Token.Comma :: []), 0⟩ {}
        = some (.ok (some Token.Comma, some (.UsingAlias ⟨"N", r, some ⟨[Token.Id "a"]⟩⟩)),
            ⟨[], 0 + [Token.Id "a"].length + 7⟩, Context.add_alias {} "N" r)) :=
  ⟨usingParse_alias_spec.1 0 "N" "T" Token.Comma [] 0 {},
   usingParse_alias_spec.2 0 "N" [Token.Id "a"] "T" Token.Comma [] 0 {} (by simp)⟩

/-- C6: when the token after a parsed name in a using name list is "=" or
"[[", the Using parser raises no error for a multi-entry list: the already
accumulated entries acc are absent from the result, and both the emitted
UsingAlias and the Context alias-table registration use only the first
segment of the last parsed qualified name, as given by get_first_name. -/
theorem usingLoop_alias_reinterpret :
    (∀ (fuel : Nat) (acc : List Name) (ctx : Context) (e : UEntry) (ty : String)
       (u : Token) (more : List Token) (p : Nat),
      ∃ r : Rc TypeDeclarator,
        usingLoop (fuel + 1) acc (firstTok e)
            ⟨entryRest e ++ Token.Equal :: Token.Id ty :: u :: more, p⟩ ctx
          = some (.ok (some u, some (.UsingAlias
              ⟨Qualified.get_first_name ⟨e.s0 :: e.rest⟩, r, none⟩)),
              ⟨more, p + (entryRest e).length + 3⟩,
              ctx.add_alias (Qualified.get_first_name ⟨e.s0 :: e.rest⟩) r)) ∧
    (∀ (fuel : Nat) (acc : List Name) (ctx : Context) (e : UEntry) (body : List Token)
       (ty : String) (u : Token) (more : List Token) (p : Nat),
      Token.DoubleRightBrack ∉ body →
      ∃ r : Rc TypeDeclarator,
        usingLoop (fuel + 1) acc (firstTok e)
            ⟨entryRest e ++ Token.DoubleLeftBrack ::
              (body ++ Token.DoubleRightBrack :: Token.Equal :: Token.Id ty :: u :: more), p⟩ ctx
          = some (.ok (some u, some (.UsingAlias
              ⟨Qualified.get_first_name ⟨e.s0 :: e.rest⟩, r, some ⟨body⟩⟩)),
              ⟨more, p + (entryRest e).length + 1 + body.length + 4⟩,
              ctx.add_alias (Qualified.get_first_name ⟨e.s0 :: e.rest⟩) r)) := by
  constructor
  · intro fuel acc ctx e ty u more p
    refine ⟨⟨p + (entryRest e).length + 1 + 1, ⟨ty⟩⟩, ?_⟩
    rw [usingLoop_entry fuel acc ctx e Token.Equal (Token.Id ty :: u :: more) p (by simp)]
    rw [usingAfterName_equal (usingLoop fuel) acc ⟨e.s0 :: e.rest⟩ e.tn ty u more
      (p + (entryRest e).length + 1) ctx]
  · intro fuel acc ctx e body ty u more p hb
    refine ⟨⟨p + (entryRest e).length + 1 + body.length + 3, ⟨ty⟩⟩, ?_⟩
    rw [usingLoop_entry fuel acc ctx e Token.DoubleLeftBrack
      (body ++ Token.DoubleRightBrack :: Token.Equal :: Token.Id ty :: u :: more) p (by simp)]
    rw [usingAfterName_attr_equal (usingLoop fuel) acc ⟨e.s0 :: e.rest⟩ e.tn body hb ty u more
      (p + (entryRest e).length + 1) ctx]

/-- Witness for usingLoop_alias_reinterpret: a discarded accumulated entry A
and the multi-segment name B::C on the left of "= T" — the alias name is only
the first segment B. -/
theorem usingLoop_alias_reinterpret_witness :
    ∃ r : Rc TypeDeclarator,
      usingLoop 1 [⟨⟨["A"]⟩, false⟩] (firstTok ⟨false, "B", ["C"]⟩)
          ⟨entryRest ⟨false, "B", ["C"]⟩ ++ Token.Equal :: Token.Id "T" :: Token.Comma :: [], 0⟩ {}
        = some (.ok (some Token.Comma, some (.UsingAlias
            ⟨Qualified.get_first_name ⟨"B" :: ["C"]⟩, r, none⟩)),
            ⟨[], 0 + (entryRest ⟨false, "B", ["C"]⟩).length + 3⟩,
            Context.add_alias {} (Qualified.get_first_name ⟨"B" :: ["C"]⟩) r) :=
  usingLoop_alias_reinterpret.1 0 [⟨⟨["A"]⟩, false⟩] {} ⟨false, "B", ["C"]⟩ "T" Token.Comma [] 0

/-- C10: for every Context and every already-read first token other than the
using keyword, the Using parser returns Ok with the original token echoed
back and no AST node, requests no further token from the lexer (the lexer
state is returned unchanged) and leaves the Context completely unchanged. -/
theorem usingParse_not_using (fuel : Nat) (t : Token) (l : Lexer) (ctx : Context)
    (h : t ≠ Token.Using) :
    usingParse fuel (some t) l ctx = some (.ok (some t, none), l, ctx) := by
  simp [usingParse, h]

/-- Witness for usingParse_not_using at a concrete non-using token. -/
theorem usingParse_not_using_witness :
    usingParse 0 (some (Token.Id "x")) ⟨[Token.Eof], 3⟩ {}
      = some (.ok (some (Token.Id "x"), none), ⟨[Token.Eof], 3⟩, {}) :=
  usingParse_not_using 0 (Token.Id "x") ⟨[Token.Eof], 3⟩ {} (by simp)

/-- C8: the array-suffix parser returns the original token unconsumed with no
Array node (and its result type carries no error) when the next token is not
a left bracket; otherwise it returns an Array node whose size is the parsed
bound expression — none exactly when the brackets are empty — together with
the token following the closing bracket. -/
theorem arrayParse_spec :
    (∀ (t : Token) (l : Lexer), t ≠ Token.LeftBrack →
      arrayParse (some t) l = ((some t, none), l)) ∧
    (∀ (body : List Token) (u : Token) (more : List Token) (p : Nat),
      Token.RightBrack ∉ body →
      ∃ l2, arrayParse (some Token.LeftBrack) ⟨body ++ Token.RightBrack :: u :: more, p⟩
        = ((some u, some ⟨none, if body.isEmpty then none else some ⟨body⟩⟩), l2)) := by
  constructor
  · intro t l h
    simp [arrayParse, h]
  · intro body u more p h
    refine ⟨⟨more, p + (body.length + 1) + 1⟩, ?_⟩
    simp [arrayParse, expressionParse, splitUntil_append Token.RightBrack body h,
      List.length_append]
    omega

/-- Witness for arrayParse_spec at concrete inputs: a non-bracket token is
echoed back, and both an empty and a nonempty bound are parsed. -/
theorem arrayParse_spec_witness :
    arrayParse (some (Token.Id "y")) ⟨[], 0⟩ = ((some (Token.Id "y"), none), ⟨[], 0⟩) ∧
    (∃ l2, arrayParse (some Token.LeftBrack) ⟨[Token.Id "n", Token.RightBrack, Token.Comma], 0⟩
      = ((some Token.Comma,
          some ⟨none, if [Token.Id "n"].isEmpty then none else some ⟨[Token.Id "n"]⟩⟩), l2)) ∧
    (∃ l2, arrayParse (some Token.LeftBrack) ⟨[Token.RightBrack, Token.Comma], 0⟩
      = ((some Token.Comma,
          some ⟨none, if ([] : List Token).isEmpty then none else some ⟨[]⟩⟩), l2)) :=
  ⟨arrayParse_spec.1 (Token.Id "y") ⟨[], 0⟩ (by simp),
   arrayParse_spec.2 [Token.Id "n"] Token.Comma [] 0 (by simp),
   arrayParse_spec.2 [] Token.Comma [] 0 (by simp)⟩

/-- C9: the inline-assembly parser, given a left parenthesis, then a
string/raw-string literal (possibly continued over further literal parts),
then a right parenthesis, returns an Asm node whose code field is the
assembled literal text; on any other token sequence it reaches an
unconditional abort (the source's unreachable branches), and its result type
has no recoverable ParserError outcome at all. -/
theorem asmParse_spec :
    (∀ (att : Option Attributes) (s : String) (parts : List String)
       (rest : List Token) (p : Nat),
      ∃ l2, asmParse att
          ⟨Token.LeftParen :: Token.Lit s :: (parts.map Token.Lit) ++ Token.RightParen :: rest, p⟩
        = (.done none (some ⟨att, assembled s parts⟩), l2)) ∧
    (∀ (att : Option Attributes) (t : Token) (rest : List Token) (p : Nat),
      t ≠ Token.LeftParen →
      ∃ l2, asmParse att ⟨t :: rest, p⟩ = (.abort, l2)) ∧
    (∀ (att : Option Attributes) (t : Token) (rest : List Token) (p : Nat),
      Token.get_string t = none →
      ∃ l2, asmParse att ⟨Token.LeftParen :: t :: rest, p⟩ = (.abort, l2)) ∧
    (∀ (att : Option Attributes) (s : String) (parts : List String) (u : Token)
       (rest : List Token) (p : Nat),
      Token.get_string u = none → u ≠ Token.RightParen →
      ∃ l2, asmParse att ⟨Token.LeftParen :: Token.Lit s :: (parts.map Token.Lit) ++ u :: rest, p⟩
        = (.abort, l2)) := by
  refine ⟨?_, ?_, ?_, ?_⟩
  · intro att s parts rest p
    refine ⟨⟨rest, p + 2 + parts.length + 1⟩, ?_⟩
    simp [asmParse, Token.get_string, stringLiteralParse,
      litRun_eq parts Token.RightParen rfl rest, List.length_append]
  · intro att t rest p h
    exact ⟨⟨rest, p + 1⟩, by simp [asmParse, h]⟩
  · intro att t rest p h
    refine ⟨⟨rest, p + 2⟩, ?_⟩
    cases t <;> simp_all [asmParse, Token.get_string]
  · intro att s parts u rest p h hu
    refine ⟨⟨rest, p + 2 + parts.length + 1⟩, ?_⟩
    simp [asmParse, Token.get_string, stringLiteralParse,
      litRun_eq parts u h rest, List.length_append, hu]

/-- Witness for asmParse_spec: a two-part literal assembles verbatim, and the
three malformed shapes abort. -/
theorem asmParse_spec_witness :
    (∃ l2, asmParse none
        ⟨[Token.LeftParen, Token.Lit "ab", Token.Lit "cd", Token.RightParen], 0⟩
      = (.done none (some ⟨none, assembled "ab" ["cd"]⟩), l2)) ∧
    (∃ l2, asmParse none ⟨[Token.Comma], 0⟩ = (.abort, l2)) ∧
    (∃ l2, asmParse none ⟨[Token.LeftParen, Token.Comma], 0⟩ = (.abort, l2)) ∧
    (∃ l2, asmParse none ⟨[Token.LeftParen, Token.Lit "ab", Token.Comma], 0⟩
      = (.abort, l2)) :=
  ⟨asmParse_spec.1 none "ab" ["cd"] [] 0,
   asmParse_spec.2.1 none Token.Comma [] 0 (by simp),
   asmParse_spec.2.2.1 none Token.Comma [] 0 rfl,
   asmParse_spec.2.2.2 none "ab" [] Token.Comma [] 0 rfl (by simp)⟩

/-- C1 (code bug): when the condition sub-parse of the While parser, or a
nested statement sub-parse of the Compound parser, returns an error, the
error is propagated without the matching context.pop: the WhileBlock (resp.
Block) scope pushed by set_current is still on the Context scope stack when
the parser returns Err, and no pop event occurs in the trace. -/
theorem scope_leak_on_suberror :
    whileParse depFail spFail none ⟨[Token.LeftParen], 0⟩ {}
      = (some (.error (.OtherError 0 Token.Eof)), ⟨[], 1⟩,
         ⟨[ScopeKind.WhileBlock], [], []⟩, [.push .WhileBlock, .condCall]) ∧
    WEvent.pop ∉ (whileParse depFail spFail none ⟨[Token.LeftParen], 0⟩ {}).2.2.2 ∧
    compoundParse spFail 5 none ⟨[Token.Id "x"], 0⟩ {}
      = (some (.error (.OtherError 0 Token.Eof)), ⟨[], 1⟩,
         ⟨[ScopeKind.Block], [], []⟩, [.push .Block, .stmtCall]) ∧
    CEvent.pop ∉ (compoundParse spFail 5 none ⟨[Token.Id "x"], 0⟩ {}).2.2.2 :=
  ⟨rfl, by decide, rfl, by decide⟩

/-- C4: whenever the While parser's condition sub-parse yields a declaration,
the declared type is registered via add_type_decl (of the shared clone)
strictly before the body statement sub-parser is invoked: the addTypeDecl
event occupies a fixed position before any bodyCall event, and the Context
handed to the body sub-parser already contains the registered type. -/
theorem whileParse_type_decl_before_body
    (dep : SubParser DeclOrExpr) (sp : SubParser Statement)
    (attributes : Option Attributes) (l : Lexer) (ctx : Context)
    (pb : Option Token) (t : Rc TypeDeclarator) (l1 : Lexer) (ctx1 : Context)
    (h1 : (l.next_useful).1 = Token.LeftParen)
    (h2 : dep none (l.next_useful).2 (ctx.set_current none ScopeKind.WhileBlock)
        = (.ok (pb, some (.Decl t)), l1, ctx1)) :
    ∃ tail,
      (whileParse dep sp attributes l ctx).2.2.2
        = WEvent.push .WhileBlock :: WEvent.condCall :: WEvent.addTypeDecl t.clone :: tail ∧
      ∀ c, WEvent.bodyCall c ∈ (whileParse dep sp attributes l ctx).2.2.2 →
        t.clone ∈ c.typeDecls := by
  rcases hl : l.next_useful with ⟨tk, l0⟩
  rw [hl] at h1 h2
  simp only at h1 h2
  subst h1
  by_cases hg : (getTok pb l1).1 = Token.RightParen
  · rcases hsp : sp none (getTok pb l1).2 (ctx1.add_type_decl t.clone) with ⟨res, l2, ctx2⟩
    cases res with
    | error e =>
        refine ⟨[WEvent.bodyCall (ctx1.add_type_decl t.clone)], ?_, ?_⟩
        · simp [whileParse, hl, h2, hg, hsp]
        · intro c hc
          simp [whileParse, hl, h2, hg, hsp] at hc
          simp [hc, Context.add_type_decl]
    | ok pr =>
        rcases pr with ⟨tok2, body⟩
        refine ⟨[WEvent.bodyCall (ctx1.add_type_decl t.clone), WEvent.pop], ?_, ?_⟩
        · cases body <;> simp [whileParse, hl, h2, hg, hsp]
        · intro c hc
          cases body <;> simp [whileParse, hl, h2, hg, hsp] at hc <;>
            simp [hc, Context.add_type_decl]
  · refine ⟨[WEvent.pop], ?_, ?_⟩
    · simp [whileParse, hl, h2, hg]
    · intro c hc
      simp [whileParse, hl, h2, hg] at hc

/-- Witness for whileParse_type_decl_before_body: a declaration condition at
a concrete while header. -/
theorem whileParse_type_decl_before_body_witness :
    ∃ tail,
      (whileParse depDecl spStub none ⟨[Token.LeftParen, Token.RightParen], 0⟩ {}).2.2.2
        = WEvent.push .WhileBlock :: WEvent.condCall
            :: WEvent.addTypeDecl (Rc.clone ⟨7, ⟨"T"⟩⟩) :: tail ∧
      ∀ c, WEvent.bodyCall c
          ∈ (whileParse depDecl spStub none ⟨[Token.LeftParen, Token.RightParen], 0⟩ {}).2.2.2 →
        Rc.clone ⟨7, ⟨"T"⟩⟩ ∈ c.typeDecls :=
  whileParse_type_decl_before_body depDecl spStub none
    ⟨[Token.LeftParen, Token.RightParen], 0⟩ {} none ⟨7, ⟨"T"⟩⟩
    ⟨[Token.RightParen], 1⟩ ⟨[ScopeKind.WhileBlock], [], []⟩ rfl rfl

theorem producedOf_append (a b : List CEvent) :
    producedOf (a ++ b) = producedOf a ++ producedOf b := by
  induction a with
  | nil => simp [producedOf]
  | cons h tl ih => cases h <;> simp [producedOf, ih]

theorem compoundLoop_stmts (fuel : Nat) :
    ∀ (sp : SubParser Statement) (attributes : Option Attributes)
      (stmts : List Statement) (tok : Token) (l : Lexer) (ctx : Context)
      (pb : Option Token) (c : Compound) (l2 : Lexer) (ctx2 : Context) (ev : List CEvent),
      compoundLoop sp attributes fuel stmts tok l ctx = (some (.ok (pb, some c)), l2, ctx2, ev) →
      pb = none ∧ c.attributes = attributes ∧ c.stmts = stmts ++ producedOf ev := by
  induction fuel with
  | zero =>
      intro sp attrs stmts tok l ctx pb c l2 ctx2 ev h
      rw [compoundLoop] at h
      simp at h
  | succ n ih =>
      intro sp attrs stmts tok l ctx pb c l2 ctx2 ev h
      by_cases ht : tok = Token.RightBrace ∨ tok = Token.Eof
      · rw [compoundLoop, if_pos ht] at h
        simp only [Prod.mk.injEq, Option.some.injEq, Except.ok.injEq] at h
        obtain ⟨⟨hpb, hc⟩, _, _, hev⟩ := h
        subst hpb
        subst hc
        subst hev
        simp [producedOf]
      · rw [compoundLoop, if_neg ht] at h
        rcases hsp : sp (some tok) l ctx with ⟨res, l1, ctx1⟩
        rw [hsp] at h
        cases res with
        | error e => simp at h
        | ok pr =>
            rcases pr with ⟨tk, stmt⟩
            cases stmt with
            | none =>
                rcases hr : compoundLoop sp attrs n stmts (getTok tk l1).1 (getTok tk l1).2 ctx1
                  with ⟨r1, rl, rc, rev⟩
                simp only [hr, Prod.mk.injEq] at h
                obtain ⟨h1, _, _, h4⟩ := h
                rw [h1] at hr
                obtain ⟨hpb, hattr, hst⟩ := ih sp attrs stmts (getTok tk l1).1 (getTok tk l1).2
                  ctx1 pb c rl rc rev hr
                subst h4
                simpa [producedOf] using ⟨hpb, hattr, hst⟩
            | some s =>
                rcases hr : compoundLoop sp attrs n (stmts ++ [s]) (getTok tk l1).1 (getTok tk l1).2 ctx1
                  with ⟨r1, rl, rc, rev⟩
                simp only [hr, Prod.mk.injEq] at h
                obtain ⟨h1, _, _, h4⟩ := h
                rw [h1] at hr
                obtain ⟨hpb, hattr, hst⟩ := ih sp attrs (stmts ++ [s]) (getTok tk l1).1 (getTok tk l1).2
                  ctx1 pb c rl rc rev hr
                subst h4
                refine ⟨hpb, hattr, ?_⟩
                simpa [producedOf] using hst

/-- C7: the Compound parser treats end-of-input exactly like a closing brace —
on either token the loop returns Ok at once with the statements accumulated
so far (so zero, one or N statements all parse and an unterminated compound
does not fail) — and every successful parse returns no pushback and exactly
the statements the statement sub-parser produced, in call (source) order. -/
theorem compoundParse_spec :
    (∀ (sp : SubParser Statement) (attributes : Option Attributes) (fuel : Nat)
       (stmts : List Statement) (l : Lexer) (ctx : Context),
       compoundLoop sp attributes (fuel + 1) stmts Token.Eof l ctx
         = (some (.ok (none, some ⟨attributes, stmts⟩)), l, ctx.pop, [CEvent.pop]) ∧
       compoundLoop sp attributes (fuel + 1) stmts Token.Eof l ctx
         = compoundLoop sp attributes (fuel + 1) stmts Token.RightBrace l ctx) ∧
    (∀ (sp : SubParser Statement) (fuel : Nat) (attributes : Option Attributes)
       (l : Lexer) (ctx : Context) (pb : Option Token) (c : Compound)
       (l2 : Lexer) (ctx2 : Context) (ev : List CEvent),
       compoundParse sp fuel attributes l ctx = (some (.ok (pb, some c)), l2, ctx2, ev) →
       pb = none ∧ c.attributes = attributes ∧ c.stmts = producedOf ev) := by
  constructor
  · intro sp attrs fuel stmts l ctx
    constructor <;> simp [compoundLoop]
  · intro sp fuel attrs l ctx pb c l2 ctx2 ev h
    rcases hr : compoundLoop sp attrs fuel [] (l.next_useful).1 (l.next_useful).2
        (ctx.set_current none ScopeKind.Block) with ⟨r1, rl, rc, rev⟩
    rw [compoundParse] at h
    simp only [hr, Prod.mk.injEq] at h
    obtain ⟨h1, _, _, h4⟩ := h
    rw [h1] at hr
    obtain ⟨hpb, hattr, hst⟩ := compoundLoop_stmts fuel sp attrs []
      (l.next_useful).1 (l.next_useful).2 (ctx.set_current none ScopeKind.Block)
      pb c rl rc rev hr
    subst h4
    simpa [producedOf] using ⟨hpb, hattr, hst⟩

/-- Witness for compoundParse_spec: a two-statement compound body, parsed
through the loop, yields the produced statements in order. -/
theorem compoundParse_spec_witness :
    (none : Option Token) = none ∧
    (Compound.mk none [⟨42⟩, ⟨42⟩]).attributes = none ∧
    (Compound.mk none [⟨42⟩, ⟨42⟩]).stmts
      = producedOf [.push .Block, .stmtCall, .stmtProduced ⟨42⟩,
          .stmtCall, .stmtProduced ⟨42⟩, .pop] :=
  compoundParse_spec.2 spStub 3 none ⟨[Token.Id "a", Token.Id "b", Token.RightBrace], 0⟩ {}
    none ⟨none, [⟨42⟩, ⟨42⟩]⟩ ⟨[], 3⟩ ⟨[], [], []⟩
    [.push .Block, .stmtCall, .stmtProduced ⟨42⟩, .stmtCall, .stmtProduced ⟨42⟩, .pop] rfl

end Cpp
